import Mathlib

/-!
Verification development for the EXFOR web-API client (`exfor_client.py`).

The parsing-and-reconstruction core of the client is shallowly embedded here:

* `parse_c5m_metadata`    embeds `_parse_c5m_metadata`   (lines 498-532);
* `parse_c5m_covariance`  embeds `_parse_c5m_covariance` (lines 535-616);
* `extract_xy_from_csv_rows` embeds the column resolver  (lines 276-341);
* `csvParseCell` embeds the numeric-cell conversion of `download_dataset_csv`
  (lines 163-174).

Modelling conventions: Python text is modelled as `List Char` per line (an
input blob is a `List (List Char)` of its lines, as produced by
`str.splitlines`); Python floats are modelled as exact rationals `ℚ`;
`float(tok)` is modelled by `parseFloat?`, which follows Python's grammar for
finite decimal literals (sign, digits, decimal point, exponent); a Python
function returning `{}` on absence is modelled as returning `none`; the
mutable N×N matrices of the source are modelled as functions `Nat → Nat → ℚ`
updated by `mset`, materialised to `List (List ℚ)` exactly where the source
materialises them.
-/

namespace Exfor

/-- `startsWithL l p` is Python's `l.startswith(p)` on character lists. -/
def startsWithL (l p : List Char) : Bool := p.isPrefixOf l

/-- Drop trailing whitespace (helper for `trimL`). -/
def rstripL (l : List Char) : List Char :=
  (l.reverse.dropWhile Char.isWhitespace).reverse

/-- Python's `str.strip()` on character lists. -/
def trimL (l : List Char) : List Char :=
  rstripL (l.dropWhile Char.isWhitespace)

/-- Python's `str.split()` (split on whitespace runs, no empty tokens). -/
def tokensL (l : List Char) : List (List Char) :=
  (List.splitOnP Char.isWhitespace l).filter (fun t => !t.isEmpty)

/-- Python's `str.upper()` (ASCII, as used by the header heuristics). -/
def upperL (l : List Char) : List Char := l.map Char.toUpper

/-- Python's `str.lower()` (ASCII, as used by the `"null"` check). -/
def lowerL (l : List Char) : List Char := l.map Char.toLower

/-- Substring test: Python's `sub in l` on character lists. -/
def containsSub (l sub : List Char) : Bool :=
  match l with
  | [] => sub.isEmpty
  | c :: t => sub.isPrefixOf (c :: t) || containsSub t sub

/-- Value of a run of decimal digits (most significant first). -/
def digToNat (l : List Char) : Nat :=
  l.foldl (fun a c => 10 * a + (c.toNat - 48)) 0

/-- `10 ^ k` in `ℚ`. -/
def pow10 (k : Nat) : ℚ := (10 : ℚ) ^ k

/-- Apply a decimal exponent part: `ds` must be a nonempty digit run. -/
def expApply (mant : ℚ) (sgnNeg : Bool) (ds : List Char) : Option ℚ :=
  if ds ≠ [] ∧ ds.all Char.isDigit then
    some (if sgnNeg then mant / pow10 (digToNat ds) else mant * pow10 (digToNat ds))
  else none

/-- Parse the signed digits of an exponent. -/
def parseExpDigits (mant : ℚ) (cs : List Char) : Option ℚ :=
  match cs with
  | '+' :: ds => expApply mant false ds
  | '-' :: ds => expApply mant true ds
  | ds => expApply mant false ds

/-- Parse an optional trailing exponent (`e`/`E` then signed digits). -/
def parseExpTail (mant : ℚ) (cs : List Char) : Option ℚ :=
  match cs with
  | [] => some mant
  | 'e' :: rest => parseExpDigits mant rest
  | 'E' :: rest => parseExpDigits mant rest
  | _ => none

/-- Parse an unsigned decimal mantissa with optional fraction and exponent. -/
def parseMantissa (cs : List Char) : Option ℚ :=
  let ip := cs.takeWhile Char.isDigit
  let r1 := cs.dropWhile Char.isDigit
  match r1 with
  | '.' :: r2 =>
      let fp := r2.takeWhile Char.isDigit
      let r3 := r2.dropWhile Char.isDigit
      if ip = [] ∧ fp = [] then none
      else parseExpTail ((digToNat ip : ℚ) + (digToNat fp : ℚ) / pow10 fp.length) r3
  | _ => if ip = [] then none else parseExpTail (digToNat ip : ℚ) r1

/-- Python's `float(tok)` on finite decimal literals, as `ℚ` (exact): optional
surrounding whitespace, optional sign, digits with optional decimal point and
optional exponent.  `inf`/`nan` and digit underscores are not modelled; the
client's inputs are plain decimal tokens. -/
def parseFloat? (cs : List Char) : Option ℚ :=
  match trimL cs with
  | '+' :: r => parseMantissa r
  | '-' :: r => (parseMantissa r).map (fun q => -q)
  | r => parseMantissa r

/-! ### CSV cell conversion and the column resolver

Embeds the numeric conversion of `download_dataset_csv` (lines 163-174) and
`extract_xy_from_csv_rows` (lines 276-341). -/

/-- A parsed CSV cell: `None`, a float, or an unparsed string. -/
inductive Cell where
  | num (q : ℚ)
  | str (s : List Char)
  | null
deriving DecidableEq

/-- A CSV row: a header-name → cell dictionary (association list, first
binding wins on lookup, mirroring unique dict keys). -/
abbrev Row := List (List Char × Cell)

/-- Numeric conversion of one raw CSV field (`download_dataset_csv`,
lines 166-173): empty or `"null"` (case-insensitive) becomes `None`, a token
accepted by `float` becomes a number, anything else stays a string. -/
def csvParseCell (v : List Char) : Cell :=
  if v = [] ∨ lowerL v = ("null".data) then Cell.null
  else
    match parseFloat? v with
    | some q => Cell.num q
    | none => Cell.str v

/-- Numeric conversion of one raw CSV row. -/
def csvConvertRow (raw : List (List Char × List Char)) : Row :=
  raw.map (fun p => (p.1, csvParseCell p.2))

/-- Priority list for the independent-variable (energy) header (line 291). -/
def energy_keys : List (List Char) :=
  ["EN (EV) 1.1".data, "x2(eV)".data, "EN(EV)".data, "x1(eV)".data]

/-- Priority list for the value header (line 297). -/
def value_keys : List (List Char) :=
  ["DATA (B) 0.1".data, "y".data, "y:Value".data, "Data(B)".data, "DATA(B)".data]

/-- Priority list for the uncertainty header (line 304). -/
def err_keys : List (List Char) :=
  ["DATA-ERR (B) 0.911".data, "ERR-T".data, "ERR-S".data, "ERR-SYS".data, "dy".data]

/-- Union of header names over all rows (line 313); the Python `set` is
modelled as a duplicate-free list in first-appearance order (Python's set
iteration order is unspecified, so the fallback scan below fixes this
deterministic order). -/
def headerUnion (rows : List Row) : List (List Char) :=
  ((rows.map (fun r => r.map Prod.fst)).flatten).foldl
    (fun acc k => if acc.contains k then acc else acc ++ [k]) []

/-- Structural fallback predicate for the energy header (line 321):
uppercased name starts with `EN` and contains `EV`. -/
def isEnergyHdr (k : List Char) : Bool :=
  startsWithL (upperL k) ("EN".data) && containsSub (upperL k) ("EV".data)

/-- Structural fallback predicate for the value header (line 323):
uppercased name starts with `DATA`, or the name is exactly `y`. -/
def isValueHdr (k : List Char) : Bool :=
  startsWithL (upperL k) ("DATA".data) || k == ("y".data)

/-- The fallback loop over the header union (lines 320-324): the first
matching header fills each still-unresolved slot. -/
def fallbackScan (pk : List (List Char)) (ek vk : Option (List Char)) :
    Option (List Char) × Option (List Char) :=
  pk.foldl
    (fun p k =>
      (if p.1 = none ∧ isEnergyHdr k then some k else p.1,
       if p.2 = none ∧ isValueHdr k then some k else p.2))
    (ek, vk)

/-- Header resolution (lines 314-327): priority lists first, then the
structural fallback when energy or value is still unresolved; `none` when no
acceptable energy/value pair exists. -/
def resolveKeys (rows : List Row) : Option (List Char × List Char × Option (List Char)) :=
  let pk := headerUnion rows
  let ek0 := energy_keys.find? (fun k => pk.contains k)
  let vk0 := value_keys.find? (fun k => pk.contains k)
  let dk := err_keys.find? (fun k => pk.contains k)
  let p := if ek0 = none ∨ vk0 = none then fallbackScan pk ek0 vk0 else (ek0, vk0)
  match p.1, p.2 with
  | some ek, some vk => some (ek, vk, dk)
  | _, _ => none

/-- Numeric content of the cell under header `k`, if any (`isinstance(v,
(int, float))` on `r.get(k)`). -/
def cellNum (r : Row) (k : List Char) : Option ℚ :=
  match r.lookup k with
  | some (Cell.num q) => some q
  | _ => none

/-- The row-filtering loop (lines 329-341): a row contributes exactly when
both the energy and the value cell are numeric; the uncertainty entry is its
numeric cell or `none`. -/
def buildSeries (ek vk : List Char) (dk : Option (List Char)) :
    List Row → List ℚ × List ℚ × List (Option ℚ)
  | [] => ([], [], [])
  | r :: rest =>
    let t := buildSeries ek vk dk rest
    match cellNum r ek, cellNum r vk with
    | some e, some y =>
        (e :: t.1, y :: t.2.1, (match dk with | some k => cellNum r k | none => none) :: t.2.2)
    | _, _ => t

/-- Lexicographic (code-point) order on header names, Python's string `<=`. -/
def lexLe : List Char → List Char → Bool
  | [], _ => true
  | _ :: _, [] => false
  | a :: as, b :: bs => if a.toNat = b.toNat then lexLe as bs else decide (a.toNat < b.toNat)

/-- `lexLe` as a proposition (used for sorting the error payload). -/
def hdrLe (a b : List Char) : Prop := lexLe a b = true

instance : DecidableRel hdrLe := fun a b => by unfold hdrLe; infer_instance

/-- Python's `sorted` on header names (line 327). -/
def sortHdrs (l : List (List Char)) : List (List Char) := l.insertionSort hdrLe

/-- `extract_xy_from_csv_rows` (lines 276-341).  The `ValueError` of
line 327 — the spec's `ColumnResolutionError` — is modelled as
`Except.error` carrying the sorted header union. -/
def extract_xy_from_csv_rows (rows : List Row) :
    Except (List (List Char)) (List ℚ × List ℚ × List (Option ℚ)) :=
  if rows = [] then .ok ([], [], [])
  else
    match resolveKeys rows with
    | some (ek, vk, dk) => .ok (buildSeries ek vk dk rows)
    | none => .error (sortHdrs (headerUnion rows))

/-! ### Metadata parsing

Embeds `_parse_c5m_metadata` (lines 498-532). -/

/-- The metadata record: a key → value dictionary.  Modelled as an
association list with unique keys; `metaSet` overwrites in place or appends,
mirroring Python dict assignment. -/
abbrev MetaDict := List (List Char × List Char)

/-- `k in meta`. -/
def memKey (m : MetaDict) (k : List Char) : Bool := m.any (fun p => p.1 == k)

/-- `meta[k]`. -/
def metaGet (m : MetaDict) (k : List Char) : Option (List Char) := m.lookup k

/-- `meta[k] = v`: overwrite the existing binding or append a new one. -/
def metaSet (m : MetaDict) (k v : List Char) : MetaDict :=
  if memKey m k then m.map (fun p => if p.1 == k then (k, v) else p)
  else m ++ [(k, v)]

/-- The fixed recognized-key set (lines 505-508). -/
def metaKeys : List (List Char) :=
  ["TITLE".data, "AUTHORS".data, "AUTHOR1".data, "YEAR".data, "REFERENCE1".data,
   "X4REF1".data, "INSTITUTE".data, "METHOD".data, "REACTION".data, "MF".data,
   "MT".data, "TARGET".data, "PROJ".data, "PRODUCT".data]

/-- Parser state: the record built so far and the "current" key for
continuations (`current_key`). -/
structure MetaState where
  meta : MetaDict
  current : Option (List Char)
deriving DecidableEq

/-- Continuation value join: `(meta[k] + " " + ln[2:].strip()).strip()`. -/
def joinVals (old cont : List Char) : List Char := trimL (old ++ ' ' :: cont)

/-- A normal (non-continuation) marker line (lines 517-531): strip the
marker, split at the first whitespace run into key and value; a recognized
key updates the record and becomes current, an unrecognized key clears
current, and an empty stripped line is skipped. -/
def metaNormalStep (st : MetaState) (ln : List Char) : MetaState :=
  let s := trimL (ln.drop 1)
  if s = [] then st
  else
    let key := s.takeWhile (fun c => !c.isWhitespace)
    let val := trimL (s.dropWhile (fun c => !c.isWhitespace))
    if key ∈ metaKeys then ⟨metaSet st.meta key val, some key⟩
    else ⟨st.meta, none⟩

/-- One loop iteration of `_parse_c5m_metadata` (lines 510-531) on one line. -/
def metaStep (st : MetaState) (ln : List Char) : MetaState :=
  if startsWithL ln ("#".data) = false then st
  else
    match st.current with
    | some k =>
        if startsWithL ln ("#+".data) && memKey st.meta k then
          ⟨metaSet st.meta k (joinVals ((metaGet st.meta k).getD []) (trimL (ln.drop 2))), some k⟩
        else metaNormalStep st ln
    | none => metaNormalStep st ln

/-- `_parse_c5m_metadata` on a list of lines (lines 498-532). -/
def parse_c5m_metadata (lines : List (List Char)) : MetaDict :=
  (lines.foldl metaStep ⟨[], none⟩).meta

/-! ### Covariance block location, row parsing and matrix reconstruction

Embeds `_parse_c5m_covariance` (lines 535-616). -/

/-- The block-start marker (line 544). -/
def covStart : List Char := "#COVARDATA".data

/-- The block-end marker (line 546). -/
def covEnd : List Char := "#/COVARDATA".data

/-- The marker-scanning loop of lines 541-548: walks the lines keeping the
index of the most recent start-marker line (`i0`), and stops at the first
end-marker line (`i1`); returns `(i0?, i1?)`. -/
def locateScan : List (List Char) → Nat → Option Nat → Option Nat × Option Nat
  | [], _, acc => (acc, none)
  | ln :: rest, i, acc =>
    let acc' := if startsWithL ln covStart then some i else acc
    if startsWithL ln covEnd then (acc', some i)
    else locateScan rest (i + 1) acc'

/-- Block location (lines 539-550): `none` exactly when the source returns
the empty dict at line 550. -/
def locateBlock (lines : List (List Char)) : Option (Nat × Nat) :=
  match locateScan lines 0 none with
  | (some i0, some i1) => if i1 ≤ i0 then none else some (i0, i1)
  | _ => none

/-- One data row of the covariance block (lines 574-580). -/
structure DataRow where
  E_min : ℚ
  E_max : ℚ
  y : ℚ
  std_pct : ℚ
  corr_list : List ℚ
deriving DecidableEq

/-- Parse one line inside the block (lines 553-580): blank lines and
marker-prefixed lines are skipped, a line with fewer than four tokens is
skipped, the first four tokens must parse as floats, and of the remaining
tokens exactly those that parse as floats are kept, in order. -/
def parseDataLine (ln : List Char) : Option DataRow :=
  if trimL ln = [] ∨ startsWithL ln ("#".data) then none
  else
    let toks := tokensL ln
    if toks.length < 4 then none
    else
      match toks with
      | a :: b :: c :: d :: rest =>
        match parseFloat? a, parseFloat? b, parseFloat? c, parseFloat? d with
        | some ea, some eb, some yv, some sp =>
            some ⟨ea, eb, yv, sp, rest.filterMap parseFloat?⟩
        | _, _, _, _ => none
      | _ => none

/-- The data rows of the block delimited by `(i0, i1)` (lines 552-580):
the lines strictly between the two markers, each parsed by `parseDataLine`. -/
def blockDataRows (lines : List (List Char)) (i0 i1 : Nat) : List DataRow :=
  ((lines.take i1).drop (i0 + 1)).filterMap parseDataLine

/-- The data rows of the covariance block of the whole input (empty when the
block is not found). -/
def dataRowsOf (lines : List (List Char)) : List DataRow :=
  match locateBlock lines with
  | none => []
  | some (i0, i1) => blockDataRows lines i0 i1

/-- Functional update of a mutable matrix cell: `M[a][b] = v`. -/
def mset (M : Nat → Nat → ℚ) (a b : Nat) (v : ℚ) : Nat → Nat → ℚ :=
  fun i j => if i = a ∧ j = b then v else M i j

/-- The initial correlation matrix (lines 585-588): diagonal `1.0`,
off-diagonal `0.0` (as a total function on indices). -/
def corrInit : Nat → Nat → ℚ := fun i j => if i = j then 1 else 0

/-- The inner fill loop of lines 592-598 for row `i`, at list position `j`:
each value at a position `jj ≤ i` is divided by `100` and written to both
`(i, jj)` and `(jj, i)`; positions `jj > i` are skipped. -/
def fillRowAux (i : Nat) : Nat → List ℚ → (Nat → Nat → ℚ) → Nat → Nat → ℚ
  | _, [], M => M
  | j, v :: rest, M =>
    fillRowAux i (j + 1) rest
      (if j ≤ i then mset (mset M i j (v / 100)) j i (v / 100) else M)

/-- The fill loop for one row, starting at position `0`. -/
def fillRow (i : Nat) (vals : List ℚ) (M : Nat → Nat → ℚ) : Nat → Nat → ℚ :=
  fillRowAux i 0 vals M

/-- The outer fill loop of lines 589-598 over all rows, rows indexed from
`idx`. -/
def corrFillAux : Nat → List DataRow → (Nat → Nat → ℚ) → Nat → Nat → ℚ
  | _, [], M => M
  | idx, r :: rest, M => corrFillAux (idx + 1) rest (fillRow idx r.corr_list M)

/-- The fully filled correlation matrix, as a function on indices. -/
def corrFunOf (rows : List DataRow) : Nat → Nat → ℚ :=
  corrFillAux 0 rows corrInit

/-- The materialised `n × n` correlation matrix `corr` of the result. -/
def corrMat (rows : List DataRow) : List (List ℚ) :=
  (List.range rows.length).map (fun i =>
    (List.range rows.length).map (fun j => corrFunOf rows i j))

/-- The sigma vector (lines 599-602): `sigma[i] = (std_pct[i]/100) * y[i]`. -/
def sigmaOf (rows : List DataRow) : List ℚ :=
  rows.map (fun r => r.std_pct / 100 * r.y)

/-- The materialised `n × n` covariance matrix (lines 604-607):
`cov[i][j] = corr[i][j] * sigma[i] * sigma[j]`. -/
def covMat (rows : List DataRow) : List (List ℚ) :=
  (List.range rows.length).map (fun i =>
    (List.range rows.length).map (fun j =>
      corrFunOf rows i j * (sigmaOf rows).getD i 0 * (sigmaOf rows).getD j 0))

/-- The result dict of `_parse_c5m_covariance` (lines 608-616). -/
structure CovResult where
  E_min : List ℚ
  E_max : List ℚ
  data : List ℚ
  std_pct : List ℚ
  sigma : List ℚ
  corr : List (List ℚ)
  cov : List (List ℚ)
deriving DecidableEq

/-- Assemble the result dict from the parsed data rows. -/
def mkCovResult (rows : List DataRow) : CovResult :=
  { E_min := rows.map (fun r => r.E_min)
    E_max := rows.map (fun r => r.E_max)
    data := rows.map (fun r => r.y)
    std_pct := rows.map (fun r => r.std_pct)
    sigma := sigmaOf rows
    corr := corrMat rows
    cov := covMat rows }

/-- `_parse_c5m_covariance` (lines 535-616): `none` models the empty dict
(block not found, or no parsable data rows). -/
def parse_c5m_covariance (lines : List (List Char)) : Option CovResult :=
  match locateBlock lines with
  | none => none
  | some (i0, i1) =>
    match blockDataRows lines i0 i1 with
    | [] => none
    | r :: rs => some (mkCovResult (r :: rs))

/-- Entry `(i, j)` of a materialised matrix. -/
def entryAt (m : List (List ℚ)) (i j : Nat) : ℚ := (m.getD i []).getD j 0

/-- Row `i`'s own correlation list truncated to the lower-triangular part
(positions `0..i`), used to state that listed positions `j > i` are ignored. -/
def truncRowsAux : Nat → List DataRow → List DataRow
  | _, [] => []
  | k, r :: rest =>
      { r with corr_list := r.corr_list.take (k + 1) } :: truncRowsAux (k + 1) rest

/-- All rows truncated to their lower-triangular correlation lists. -/
def truncRows (rows : List DataRow) : List DataRow := truncRowsAux 0 rows

/-! ### Clean marker-index functions and the spec-worded locator

The first two are plain first/last index computations used to characterise
`locateBlock`; `locateBlockSpec` transcribes the specification's wording of
the delimitation rule, for comparison with the code's behaviour. -/

/-- Index (counting from `i`) of the first line matching the block-end
marker. -/
def firstEndFrom : List (List Char) → Nat → Option Nat
  | [], _ => none
  | ln :: rest, i =>
    if startsWithL ln covEnd then some i else firstEndFrom rest (i + 1)

/-- Index (counting from `i`) of the first line matching the block-start
marker. -/
def firstStartFrom : List (List Char) → Nat → Option Nat
  | [], _ => none
  | ln :: rest, i =>
    if startsWithL ln covStart then some i else firstStartFrom rest (i + 1)

/-- Index (counting from `i`) of the last line matching the block-start
marker, with accumulator `acc`. -/
def lastStartFrom : List (List Char) → Nat → Option Nat → Option Nat
  | [], _, acc => acc
  | ln :: rest, i, acc =>
    lastStartFrom rest (i + 1) (if startsWithL ln covStart then some i else acc)

/-- Modelled from the spec: "Locate the first line matching the block-start
marker and the first subsequent line matching the block-end marker; if either
is absent, or the end precedes/equals the start, report not found."  This is
the claimed delimitation rule; the code's `locateBlock` is compared against
it. -/
def locateBlockSpec (lines : List (List Char)) : Option (Nat × Nat) :=
  match firstStartFrom lines 0 with
  | none => none
  | some i0 =>
    match firstEndFrom (lines.drop (i0 + 1)) (i0 + 1) with
    | none => none
    | some i1 => if i1 ≤ i0 then none else some (i0, i1)

/-- Modelled from the spec: the covariance parse as it would behave with the
spec-worded delimitation rule (identical to `parse_c5m_covariance` except
for the locator). -/
def parse_c5m_covariance_spec (lines : List (List Char)) : Option CovResult :=
  match locateBlockSpec lines with
  | none => none
  | some (i0, i1) =>
    match blockDataRows lines i0 i1 with
    | [] => none
    | r :: rs => some (mkCovResult (r :: rs))

/-! ### Concrete inputs used by the spec's examples and by witnesses -/

/-- The two-row covariance block of the spec's worked example. -/
def exCovLines : List (List Char) :=
  ["#COVARDATA".data,
   "0.0 1.0 10.0 5.0 100".data,
   "1.0 2.0 20.0 8.0 50 100".data,
   "#/COVARDATA".data]

/-- The parsed value of a decimal token (scalar vehicle for naming the
fields of concretely parsed rows). -/
def qlit (s : String) : ℚ := (parseFloat? s.data).getD 0

/-- The data rows the worked example reconstructs: definitionally equal to
`dataRowsOf exCovLines`. -/
def exCovRows : List DataRow :=
  [⟨qlit "0.0", qlit "1.0", qlit "10.0", qlit "5.0", [qlit "100"]⟩,
   ⟨qlit "1.0", qlit "2.0", qlit "20.0", qlit "8.0", [qlit "50", qlit "100"]⟩]

/-- A block whose second start marker sits between the first start marker and
the first end marker: the code and the spec-worded locator disagree here. -/
def dupStartLines : List (List Char) :=
  ["#COVARDATA".data,
   "0.0 1.0 10.0 5.0 100".data,
   "#COVARDATA".data,
   "#/COVARDATA".data]

/-- A block with a start marker but no end marker. -/
def noEndLines : List (List Char) :=
  ["#COVARDATA".data, "0.0 1.0 10.0 5.0 100".data]

/-- The metadata example: `#TITLE Example` followed by `#+ continued`. -/
def exMetaLines : List (List Char) :=
  ["#TITLE Example".data, "#+ continued".data]

/-- The raw tabular row of the spec's column-resolution example. -/
def exCsvRaw : List (List Char × List Char) :=
  [("EN (EV) 1.1".data, "1000".data),
   ("DATA (B) 0.1".data, "2.5".data),
   ("DATA-ERR (B) 0.911".data, "0.1".data)]

/-- A tabular row with no recognizable energy/value header. -/
def badHdrRows : List Row :=
  [[("FOO".data, Cell.num 1), ("BAR".data, Cell.str ("x".data))]]

/-- A block exercising the tolerant row parsing: a short line, a line whose
fourth token is not a float, and a line with one unparseable correlation
token. -/
def tolCovLines : List (List Char) :=
  ["#COVARDATA".data,
   "0.0 1.0".data,
   "0.0 1.0 10.0 xx 100".data,
   "1.0 2.0 20.0 8.0 50 zz 100".data,
   "#/COVARDATA".data]

/-- Rows for the filtering witness: one fully numeric row without an
uncertainty value, one row whose value cell is a string. -/
def mixedRows : List Row :=
  [[("EN (EV) 1.1".data, Cell.num 7), ("DATA (B) 0.1".data, Cell.num 3)],
   [("EN (EV) 1.1".data, Cell.num 8), ("DATA (B) 0.1".data, Cell.str ("oops".data))]]

/-! ## Theorems

First, characterisations of the imperative fill loops; the cell `(a, b)` of
the correlation matrix is written at most once, by row `max a b` at list
position `min a b`. -/

theorem fillRowAux_eq (i : Nat) (vals : List ℚ) :
    ∀ (j : Nat) (M : Nat → Nat → ℚ) (a b : Nat),
      fillRowAux i j vals M a b =
        if a = i ∧ j ≤ b ∧ b ≤ i ∧ b < j + vals.length then vals.getD (b - j) 0 / 100
        else if b = i ∧ j ≤ a ∧ a ≤ i ∧ a < j + vals.length then vals.getD (a - j) 0 / 100
        else M a b := by
  induction vals with
  | nil =>
      intro j M a b
      simp only [fillRowAux, List.length_nil]
      split_ifs with h1 h2
      · omega
      · omega
      · rfl
  | cons v rest ih =>
      intro j M a b
      simp only [fillRowAux, List.length_cons]
      rw [ih]
      by_cases hji : j ≤ i
      · simp only [if_pos hji, mset]
        split_ifs <;>
          (first
            | rfl
            | omega
            | (exfalso; omega)
            | ((first
                | rw [show b - j = b - (j + 1) + 1 from by omega, List.getD_cons_succ]
                | rw [show a - j = a - (j + 1) + 1 from by omega, List.getD_cons_succ]
                | rw [show b - j = a - (j + 1) + 1 from by omega, List.getD_cons_succ]
                | rw [show a - j = b - (j + 1) + 1 from by omega, List.getD_cons_succ]
                | rw [show b - j = 0 from by omega]
                | rw [show a - j = 0 from by omega]) <;>
              rfl))
      · simp only [if_neg hji]
        split_ifs <;> first | rfl | omega

theorem fillRow_eq (i : Nat) (vals : List ℚ) (M : Nat → Nat → ℚ) (a b : Nat) :
    fillRow i vals M a b =
      if a = i ∧ b ≤ i ∧ b < vals.length then vals.getD b 0 / 100
      else if b = i ∧ a ≤ i ∧ a < vals.length then vals.getD a 0 / 100
      else M a b := by
  have h := fillRowAux_eq i vals 0 M a b
  simpa [fillRow] using h

theorem corrFillAux_eq (rows : List DataRow) :
    ∀ (idx : Nat) (M : Nat → Nat → ℚ) (a b : Nat),
      corrFillAux idx rows M a b =
        ((if idx ≤ max a b then rows[max a b - idx]? else none).bind
            (fun r => r.corr_list[min a b]?)).elim (M a b) (fun v => v / 100) := by
  induction rows with
  | nil =>
      intro idx M a b
      simp only [corrFillAux]
      split_ifs <;> simp
  | cons r rest ih =>
      intro idx M a b
      simp only [corrFillAux]
      rw [ih]
      rcases Nat.lt_trichotomy idx (max a b) with hlt | heq | hgt
      · have h1 : idx + 1 ≤ max a b := hlt
        have h2 : idx ≤ max a b := Nat.le_of_lt hlt
        rw [if_pos h1, if_pos h2]
        have hs : max a b - idx = (max a b - (idx + 1)) + 1 := by omega
        rw [hs, List.getElem?_cons_succ]
        rcases hopt : (rest[max a b - (idx + 1)]?).bind (fun r => r.corr_list[min a b]?) with _ | v
        · simp only [hopt, Option.elim]
          rw [fillRow_eq]
          have hc1 : ¬ (a = idx ∧ b ≤ idx ∧ b < r.corr_list.length) := by omega
          have hc2 : ¬ (b = idx ∧ a ≤ idx ∧ a < r.corr_list.length) := by omega
          rw [if_neg hc1, if_neg hc2]
        · simp only [hopt, Option.elim]
      · have h1 : ¬ idx + 1 ≤ max a b := by omega
        have h2 : idx ≤ max a b := by omega
        rw [if_neg h1, if_pos h2]
        have hz : max a b - idx = 0 := by omega
        rw [hz, List.getElem?_cons_zero]
        simp only [Option.none_bind, Option.some_bind, Option.elim]
        rw [fillRow_eq]
        rcases Nat.le_total a b with hab | hba
        · have hmx : max a b = b := Nat.max_eq_right hab
          have hmn : min a b = a := Nat.min_eq_left hab
          rw [hmn]
          by_cases hal : a < r.corr_list.length
          · rw [List.getElem?_eq_getElem hal]
            simp only [Option.elim]
            by_cases hai : a = idx
            · have hc1 : a = idx ∧ b ≤ idx ∧ b < r.corr_list.length := by omega
              rw [if_pos hc1]
              rw [show b = a from by omega]
              rw [List.getD_eq_getElem?_getD, List.getElem?_eq_getElem hal]
              rfl
            · have hc1 : ¬ (a = idx ∧ b ≤ idx ∧ b < r.corr_list.length) := by omega
              have hc2 : b = idx ∧ a ≤ idx ∧ a < r.corr_list.length := by omega
              rw [if_neg hc1, if_pos hc2]
              rw [List.getD_eq_getElem?_getD, List.getElem?_eq_getElem hal]
              rfl
          · rw [List.getElem?_eq_none (by omega)]
            simp only [Option.elim]
            have hc1 : ¬ (a = idx ∧ b ≤ idx ∧ b < r.corr_list.length) := by omega
            have hc2 : ¬ (b = idx ∧ a ≤ idx ∧ a < r.corr_list.length) := by omega
            rw [if_neg hc1, if_neg hc2]
        · have hmx : max a b = a := Nat.max_eq_left hba
          have hmn : min a b = b := Nat.min_eq_right hba
          rw [hmn]
          by_cases hbl : b < r.corr_list.length
          · rw [List.getElem?_eq_getElem hbl]
            simp only [Option.elim]
            have hc1 : a = idx ∧ b ≤ idx ∧ b < r.corr_list.length := by omega
            rw [if_pos hc1]
            rw [List.getD_eq_getElem?_getD, List.getElem?_eq_getElem hbl]
            rfl
          · rw [List.getElem?_eq_none (by omega)]
            simp only [Option.elim]
            have hc1 : ¬ (a = idx ∧ b ≤ idx ∧ b < r.corr_list.length) := by omega
            have hc2 : ¬ (b = idx ∧ a ≤ idx ∧ a < r.corr_list.length) := by omega
            rw [if_neg hc1, if_neg hc2]
      · have h1 : ¬ idx + 1 ≤ max a b := by omega
        have h2 : ¬ idx ≤ max a b := by omega
        rw [if_neg h1, if_neg h2]
        simp only [Option.none_bind, Option.elim]
        rw [fillRow_eq]
        have hc1 : ¬ (a = idx ∧ b ≤ idx ∧ b < r.corr_list.length) := by omega
        have hc2 : ¬ (b = idx ∧ a ≤ idx ∧ a < r.corr_list.length) := by omega
        rw [if_neg hc1, if_neg hc2]

/-- The final content of the correlation matrix: cell `(a, b)` holds the
percent value listed by row `max a b` at position `min a b`, divided by 100,
and otherwise keeps its initial value (`1` on the diagonal, `0` off it). -/
theorem corrFunOf_eq (rows : List DataRow) (a b : Nat) :
    corrFunOf rows a b =
      ((rows[max a b]?).bind (fun r => r.corr_list[min a b]?)).elim
        (corrInit a b) (fun v => v / 100) := by
  have h := corrFillAux_eq rows 0 corrInit a b
  simpa [corrFunOf] using h

theorem corrInit_symm (a b : Nat) : corrInit a b = corrInit b a := by
  unfold corrInit
  by_cases h : a = b
  · rw [h]
  · rw [if_neg h, if_neg (fun hba => h hba.symm)]

theorem corrFunOf_symm (rows : List DataRow) (a b : Nat) :
    corrFunOf rows a b = corrFunOf rows b a := by
  rw [corrFunOf_eq, corrFunOf_eq, Nat.max_comm, Nat.min_comm, corrInit_symm]

theorem corrFunOf_diag_default (rows : List DataRow) (d : Nat) (r : DataRow)
    (hr : rows[d]? = some r) (hlen : r.corr_list.length ≤ d) :
    corrFunOf rows d d = 1 := by
  rw [corrFunOf_eq]
  simp only [Nat.max_self, Nat.min_self, hr, Option.some_bind]
  rw [List.getElem?_eq_none hlen]
  simp [Option.elim, corrInit]

theorem corrFunOf_entry (rows : List DataRow) (i j : Nat) (v : ℚ)
    (hji : j ≤ i) (hv : (rows[i]?).bind (fun r => r.corr_list[j]?) = some v) :
    corrFunOf rows i j = v / 100 ∧ corrFunOf rows j i = v / 100 := by
  constructor
  · rw [corrFunOf_eq, Nat.max_eq_left hji, Nat.min_eq_right hji, hv]; rfl
  · rw [corrFunOf_eq, Nat.max_eq_right hji, Nat.min_eq_left hji, hv]; rfl

theorem truncRowsAux_getElem? (rows : List DataRow) :
    ∀ (k m : Nat),
      (truncRowsAux k rows)[m]? =
        (rows[m]?).map (fun r => { r with corr_list := r.corr_list.take (k + m + 1) }) := by
  induction rows with
  | nil => intro k m; simp [truncRowsAux]
  | cons r rest ih =>
      intro k m
      cases m with
      | zero => simp [truncRowsAux]
      | succ m =>
          simp only [truncRowsAux, List.getElem?_cons_succ, ih (k + 1) m]
          have : k + 1 + m + 1 = k + (m + 1) + 1 := by omega
          rw [this]

theorem truncRowsAux_length (rows : List DataRow) :
    ∀ k, (truncRowsAux k rows).length = rows.length := by
  induction rows with
  | nil => intro k; rfl
  | cons r rest ih => intro k; simp [truncRowsAux, ih (k + 1)]

theorem corrFunOf_trunc (rows : List DataRow) (a b : Nat) :
    corrFunOf rows a b = corrFunOf (truncRows rows) a b := by
  rw [corrFunOf_eq, corrFunOf_eq]
  unfold truncRows
  rw [truncRowsAux_getElem?]
  cases hr : rows[max a b]? with
  | none => rfl
  | some r =>
      simp only [Option.map_some', Option.some_bind]
      have htake : (r.corr_list.take (0 + max a b + 1))[min a b]? = r.corr_list[min a b]? := by
        rw [List.getElem?_take]
        rw [if_pos (by omega)]
      rw [htake]

theorem sigmaOf_length (rows : List DataRow) : (sigmaOf rows).length = rows.length := by
  simp [sigmaOf]

theorem corrMat_length (rows : List DataRow) : (corrMat rows).length = rows.length := by
  simp [corrMat]

theorem corrMat_row_length (rows : List DataRow) (row : List ℚ)
    (h : row ∈ corrMat rows) : row.length = rows.length := by
  unfold corrMat at h
  obtain ⟨i, hi, hrow⟩ := List.mem_map.mp h
  rw [← hrow]
  simp

theorem entryAt_corrMat (rows : List DataRow) (i j : Nat)
    (hi : i < rows.length) (hj : j < rows.length) :
    entryAt (corrMat rows) i j = corrFunOf rows i j := by
  have h1 : (corrMat rows).getD i [] =
      (List.range rows.length).map (fun j => corrFunOf rows i j) := by
    unfold corrMat
    rw [List.getD_eq_getElem?_getD, List.getElem?_map, List.getElem?_range hi]
    rfl
  unfold entryAt
  rw [h1, List.getD_eq_getElem?_getD, List.getElem?_map, List.getElem?_range hj]
  rfl

theorem entryAt_covMat (rows : List DataRow) (i j : Nat)
    (hi : i < rows.length) (hj : j < rows.length) :
    entryAt (covMat rows) i j =
      corrFunOf rows i j * (sigmaOf rows).getD i 0 * (sigmaOf rows).getD j 0 := by
  have h1 : (covMat rows).getD i [] =
      (List.range rows.length).map
        (fun j => corrFunOf rows i j * (sigmaOf rows).getD i 0 * (sigmaOf rows).getD j 0) := by
    unfold covMat
    rw [List.getD_eq_getElem?_getD, List.getElem?_map, List.getElem?_range hi]
    rfl
  unfold entryAt
  rw [h1, List.getD_eq_getElem?_getD, List.getElem?_map, List.getElem?_range hj]
  rfl

theorem parse_c5m_covariance_some {lines : List (List Char)} {res : CovResult}
    (h : parse_c5m_covariance lines = some res) :
    res = mkCovResult (dataRowsOf lines) ∧ dataRowsOf lines ≠ [] := by
  unfold parse_c5m_covariance at h
  cases hloc : locateBlock lines with
  | none => simp only [hloc] at h; exact Option.noConfusion h
  | some p =>
      obtain ⟨i0, i1⟩ := p
      simp only [hloc] at h
      cases hrows : blockDataRows lines i0 i1 with
      | nil => simp only [hrows] at h; exact Option.noConfusion h
      | cons r rs =>
          simp only [hrows, Option.some.injEq] at h
          have hd : dataRowsOf lines = r :: rs := by
            simp only [dataRowsOf, hloc, hrows]
          rw [hd]
          exact ⟨h.symm, by simp⟩

/-- C1: for every input text, the correlation matrix produced by the
covariance parse with N reconstructed points is N×N, symmetric
(`corr[i][j] = corr[j][i]` for all `i, j`), and every diagonal entry equals
`1.0` unless the row's correlation list explicitly supplies a value for it
(i.e. unless list position `i` of row `i` exists). -/
theorem C1_corr_square_symm_diag (lines : List (List Char)) (res : CovResult)
    (h : parse_c5m_covariance lines = some res) :
    res.corr.length = res.data.length
    ∧ (∀ row ∈ res.corr, row.length = res.data.length)
    ∧ (∀ i j, i < res.data.length → j < res.data.length →
        entryAt res.corr i j = entryAt res.corr j i)
    ∧ (∀ i r, (dataRowsOf lines)[i]? = some r → r.corr_list.length ≤ i →
        entryAt res.corr i i = 1) := by
  obtain ⟨hres, hne⟩ := parse_c5m_covariance_some h
  subst hres
  have hdata : (mkCovResult (dataRowsOf lines)).data.length = (dataRowsOf lines).length := by
    simp [mkCovResult]
  have hcorr : (mkCovResult (dataRowsOf lines)).corr = corrMat (dataRowsOf lines) := rfl
  refine ⟨?_, ?_, ?_, ?_⟩
  · rw [hdata, hcorr, corrMat_length]
  · intro row hrow
    rw [hdata]
    exact corrMat_row_length _ row (by rw [← hcorr]; exact hrow)
  · intro i j hi hj
    rw [hdata] at hi hj
    rw [hcorr, entryAt_corrMat _ i j hi hj, entryAt_corrMat _ j i hj hi, corrFunOf_symm]
  · intro i r hr hlen
    obtain ⟨hi, -⟩ := List.getElem?_eq_some.mp hr
    rw [hcorr, entryAt_corrMat _ i i hi hi]
    exact corrFunOf_diag_default _ i r hr hlen

/-- C1 witness: the theorem applied to the worked two-row block. -/
theorem C1_witness :
    parse_c5m_covariance exCovLines = some (mkCovResult exCovRows)
    ∧ ((mkCovResult exCovRows).corr.length = (mkCovResult exCovRows).data.length
       ∧ (∀ row ∈ (mkCovResult exCovRows).corr,
            row.length = (mkCovResult exCovRows).data.length)
       ∧ (∀ i j, i < (mkCovResult exCovRows).data.length →
            j < (mkCovResult exCovRows).data.length →
            entryAt (mkCovResult exCovRows).corr i j = entryAt (mkCovResult exCovRows).corr j i)
       ∧ (∀ i r, (dataRowsOf exCovLines)[i]? = some r → r.corr_list.length ≤ i →
            entryAt (mkCovResult exCovRows).corr i i = 1)) :=
  ⟨rfl, C1_corr_square_symm_diag exCovLines (mkCovResult exCovRows) rfl⟩

theorem getD_map_get {α β : Type} (f : α → β) (l : List α) (i : Nat) (d : β)
    (hi : i < l.length) : (l.map f).getD i d = f (l.get ⟨i, hi⟩) := by
  rw [List.getD_eq_getElem?_getD, List.getElem?_map, List.getElem?_eq_getElem hi]
  simp

set_option maxRecDepth 4000 in
/-- C2: for every non-empty covariance parse result with N points,
`sigma[i] = (std_pct[i]/100) * value[i]` for every `i < N` and
`cov[i][j] = corr[i][j] * sigma[i] * sigma[j]` for all `i, j < N`; and on the
spec's two-row block the result has N = 2, `sigma = [0.5, 1.6]`,
`corr = [[1, 0.5], [0.5, 1]]` and `cov[0][1] = 0.4`. -/
theorem C2_sigma_cov (lines : List (List Char)) (res : CovResult)
    (h : parse_c5m_covariance lines = some res) :
    ((∀ i, i < res.data.length →
        res.sigma.getD i 0 = res.std_pct.getD i 0 / 100 * res.data.getD i 0)
     ∧ (∀ i j, i < res.data.length → j < res.data.length →
        entryAt res.cov i j = entryAt res.corr i j * res.sigma.getD i 0 * res.sigma.getD j 0))
    ∧ ((parse_c5m_covariance exCovLines).map (fun r => r.data.length) = some 2
       ∧ (parse_c5m_covariance exCovLines).map (fun r => r.sigma) = some [1/2, 8/5]
       ∧ (parse_c5m_covariance exCovLines).map (fun r => r.corr) = some [[1, 1/2], [1/2, 1]]
       ∧ (parse_c5m_covariance exCovLines).map (fun r => entryAt r.cov 0 1) = some (2/5)) := by
  obtain ⟨hres, hne⟩ := parse_c5m_covariance_some h
  subst hres
  have hdata : (mkCovResult (dataRowsOf lines)).data.length = (dataRowsOf lines).length := by
    simp [mkCovResult]
  constructor
  · constructor
    · intro i hi
      rw [hdata] at hi
      show (sigmaOf (dataRowsOf lines)).getD i 0 = _
      unfold sigmaOf
      rw [getD_map_get _ _ i 0 hi]
      show _ = ((dataRowsOf lines).map (fun r => r.std_pct)).getD i 0 / 100 *
        ((dataRowsOf lines).map (fun r => r.y)).getD i 0
      rw [getD_map_get _ _ i 0 hi, getD_map_get _ _ i 0 hi]
    · intro i j hi hj
      rw [hdata] at hi hj
      show entryAt (covMat (dataRowsOf lines)) i j = _
      rw [entryAt_covMat _ i j hi hj]
      show _ = entryAt (corrMat (dataRowsOf lines)) i j * _ * _
      rw [entryAt_corrMat _ i j hi hj]
      rfl
  · refine ⟨rfl, ?_, ?_, ?_⟩
    · have hs : (parse_c5m_covariance exCovLines).map (fun r => r.sigma) =
          some (sigmaOf exCovRows) := rfl
      rw [hs]
      simp +decide [sigmaOf, exCovRows, qlit, parseFloat?, parseMantissa, parseExpTail,
        trimL, rstripL, digToNat, pow10]
      norm_num
    · have hc : (parse_c5m_covariance exCovLines).map (fun r => r.corr) =
          some (corrMat exCovRows) := rfl
      rw [hc]
      simp +decide [corrMat, exCovRows, corrFunOf_eq, corrInit, qlit, parseFloat?,
        parseMantissa, parseExpTail, trimL, rstripL, digToNat, pow10, List.range_succ]
      norm_num
    · have hv : (parse_c5m_covariance exCovLines).map (fun r => entryAt r.cov 0 1) =
          some (entryAt (covMat exCovRows) 0 1) := rfl
      rw [hv]
      simp +decide [entryAt, covMat, exCovRows, corrFunOf_eq, corrInit, sigmaOf, qlit,
        parseFloat?, parseMantissa, parseExpTail, trimL, rstripL, digToNat, pow10,
        List.range_succ]
      norm_num

/-- C2 witness: the universal part applied to the worked two-row block. -/
theorem C2_witness :
    parse_c5m_covariance exCovLines = some (mkCovResult exCovRows)
    ∧ (∀ i, i < (mkCovResult exCovRows).data.length →
        (mkCovResult exCovRows).sigma.getD i 0 =
          (mkCovResult exCovRows).std_pct.getD i 0 / 100 *
            (mkCovResult exCovRows).data.getD i 0)
    ∧ (∀ i j, i < (mkCovResult exCovRows).data.length →
        j < (mkCovResult exCovRows).data.length →
        entryAt (mkCovResult exCovRows).cov i j =
          entryAt (mkCovResult exCovRows).corr i j *
            (mkCovResult exCovRows).sigma.getD i 0 *
            (mkCovResult exCovRows).sigma.getD j 0) :=
  ⟨rfl, (C2_sigma_cov exCovLines (mkCovResult exCovRows) rfl).1.1,
    (C2_sigma_cov exCovLines (mkCovResult exCovRows) rfl).1.2⟩

/-- C3: in matrix reconstruction, a token at position `j` of row `i`'s raw
correlation list is written, divided by 100, to both `(i, j)` and `(j, i)`
whenever `j ≤ i`; and positions `j > i` are ignored — the matrix equals the
one built from the lists truncated to their lower-triangular prefixes. -/
theorem C3_triangular_fill (rows : List DataRow) :
    (∀ i j v, j ≤ i → (rows[i]?).bind (fun r => r.corr_list[j]?) = some v →
       entryAt (corrMat rows) i j = v / 100 ∧ entryAt (corrMat rows) j i = v / 100)
    ∧ corrMat rows = corrMat (truncRows rows) := by
  constructor
  · intro i j v hji hv
    have hi : i < rows.length := by
      cases hr : rows[i]? with
      | none => rw [hr] at hv; exact absurd hv (by simp)
      | some r => exact (List.getElem?_eq_some.mp hr).1
    have hj : j < rows.length := lt_of_le_of_lt hji hi
    rw [entryAt_corrMat rows i j hi hj, entryAt_corrMat rows j i hj hi]
    exact corrFunOf_entry rows i j v hji hv
  · unfold corrMat
    rw [show (truncRows rows).length = rows.length from truncRowsAux_length rows 0]
    have he : ∀ i j, corrFunOf rows i j = corrFunOf (truncRows rows) i j :=
      corrFunOf_trunc rows
    simp only [he]

/-- C3 witness: applied to the worked rows at row 1, position 0. -/
theorem C3_witness :
    (0 ≤ 1 ∧ (exCovRows[1]?).bind (fun r => r.corr_list[0]?) = some (qlit "50"))
    ∧ (entryAt (corrMat exCovRows) 1 0 = qlit "50" / 100
       ∧ entryAt (corrMat exCovRows) 0 1 = qlit "50" / 100)
    ∧ corrMat exCovRows = corrMat (truncRows exCovRows) :=
  ⟨⟨by omega, rfl⟩, (C3_triangular_fill exCovRows).1 1 0 (qlit "50") (by omega) rfl,
    (C3_triangular_fill exCovRows).2⟩

theorem not_start_and_end (ln : List Char) :
    ¬(startsWithL ln covStart = true ∧ startsWithL ln covEnd = true) := by
  rintro ⟨h1, h2⟩
  rw [startsWithL, List.isPrefixOf_iff_prefix] at h1 h2
  obtain ⟨t1, e1⟩ := h1
  obtain ⟨t2, e2⟩ := h2
  rw [← e1] at e2
  have hS : covStart = '#' :: 'C' :: ("OVARDATA".data) := rfl
  have hE : covEnd = '#' :: '/' :: ("COVARDATA".data) := rfl
  rw [hS, hE] at e2
  simp only [List.cons_append, List.cons.injEq] at e2
  exact absurd e2.2.1 (by decide)

theorem firstEndFrom_ge (lines : List (List Char)) :
    ∀ (i r : Nat), firstEndFrom lines i = some r → i ≤ r := by
  induction lines with
  | nil => intro i r h; exact absurd h (by simp [firstEndFrom])
  | cons ln rest ih =>
      intro i r h
      unfold firstEndFrom at h
      by_cases he : startsWithL ln covEnd = true
      · rw [if_pos he] at h
        simp only [Option.some.injEq] at h
        omega
      · rw [if_neg he] at h
        have := ih (i + 1) r h
        omega

theorem lastStartFrom_bound (lines : List (List Char)) :
    ∀ (i : Nat) (acc : Option Nat) (j : Nat), lastStartFrom lines i acc = some j →
      acc = some j ∨ (i ≤ j ∧ j < i + lines.length) := by
  induction lines with
  | nil => intro i acc j h; exact Or.inl h
  | cons ln rest ih =>
      intro i acc j h
      unfold lastStartFrom at h
      rcases ih (i + 1) _ j h with hacc | hbound
      · by_cases hs : startsWithL ln covStart = true
        · rw [if_pos hs] at hacc
          right
          simp only [Option.some.injEq] at hacc
          simp only [List.length_cons]
          omega
        · rw [if_neg hs] at hacc
          exact Or.inl hacc
      · right
        simp only [List.length_cons]
        omega

theorem locateScan_eq (lines : List (List Char)) :
    ∀ (i : Nat) (acc : Option Nat),
      locateScan lines i acc =
        match firstEndFrom lines i with
        | none => (lastStartFrom lines i acc, none)
        | some i1 => (lastStartFrom (lines.take (i1 - i)) i acc, some i1) := by
  induction lines with
  | nil => intro i acc; rfl
  | cons ln rest ih =>
      intro i acc
      by_cases he : startsWithL ln covEnd = true
      · have hs : ¬ startsWithL ln covStart = true := fun hs =>
          not_start_and_end ln ⟨hs, he⟩
        have h1 : firstEndFrom (ln :: rest) i = some i := by
          simp only [firstEndFrom]; rw [if_pos he]
        rw [h1]
        unfold locateScan
        rw [if_pos he]
        simp only [Bool.not_eq_true] at hs
        rw [hs]
        simp only [Nat.sub_self, List.take_zero]
        rfl
      · have h1 : firstEndFrom (ln :: rest) i = firstEndFrom rest (i + 1) := by
          simp only [firstEndFrom]; rw [if_neg he]
        rw [h1]
        unfold locateScan
        rw [if_neg he]
        rw [ih (i + 1) (if startsWithL ln covStart = true then some i else acc)]
        cases hfe : firstEndFrom rest (i + 1) with
        | none => rfl
        | some i1 =>
            have hge : i + 1 ≤ i1 := firstEndFrom_ge rest (i + 1) i1 hfe
            have htk : (ln :: rest).take (i1 - i) = ln :: rest.take (i1 - (i + 1)) := by
              rw [show i1 - i = (i1 - (i + 1)) + 1 from by omega]
              rfl
            dsimp only
            rw [htk]
            rfl

theorem locateBlock_eq (lines : List (List Char)) :
    locateBlock lines =
      match firstEndFrom lines 0 with
      | none => none
      | some i1 =>
        match lastStartFrom (lines.take i1) 0 none with
        | none => none
        | some i0 => some (i0, i1) := by
  unfold locateBlock
  rw [locateScan_eq lines 0 none]
  cases hfe : firstEndFrom lines 0 with
  | none => cases lastStartFrom lines 0 none <;> rfl
  | some i1 =>
      simp only [Nat.sub_zero]
      cases hls : lastStartFrom (lines.take i1) 0 none with
      | none => rfl
      | some i0 =>
          rcases lastStartFrom_bound (lines.take i1) 0 none i0 hls with hacc | hbound
          · exact absurd hacc (by simp)
          · have hlen : (lines.take i1).length ≤ i1 := by
              simp [List.length_take]
            have : ¬ i1 ≤ i0 := by omega
            simp only [if_neg this]

/-- C4 counterexample: with a second start marker between the first start
marker and the first end marker, the parse does not delimit the block by the
first start marker and the first subsequent end marker: the spec-worded
parse finds one point on `dupStartLines`, the code's parse finds none. -/
theorem C4_counterexample :
    parse_c5m_covariance dupStartLines ≠ parse_c5m_covariance_spec dupStartLines := by
  intro h
  have h1 : parse_c5m_covariance dupStartLines = none := rfl
  have h2 : (parse_c5m_covariance_spec dupStartLines).isSome = true := rfl
  rw [h1] at h
  rw [← h] at h2
  simp at h2

/-- C4 (amended): for every input text, the covariance block is delimited by
the first line matching the block-end marker together with the last line
matching the block-start marker that precedes it; if there is no end-marker
line, or no start-marker line precedes the first end-marker line, the
covariance parse returns the empty result rather than raising an error. -/
theorem C4_block_delimitation (lines : List (List Char)) :
    (locateBlock lines =
      match firstEndFrom lines 0 with
      | none => none
      | some i1 =>
        match lastStartFrom (lines.take i1) 0 none with
        | none => none
        | some i0 => some (i0, i1))
    ∧ (locateBlock lines = none → parse_c5m_covariance lines = none) := by
  refine ⟨locateBlock_eq lines, fun h => ?_⟩
  unfold parse_c5m_covariance
  simp only [h]

/-- C4 witness: the amended theorem applied to a block lacking an end
marker. -/
theorem C4_witness :
    (locateBlock noEndLines =
      match firstEndFrom noEndLines 0 with
      | none => none
      | some i1 =>
        match lastStartFrom (noEndLines.take i1) 0 none with
        | none => none
        | some i0 => some (i0, i1))
    ∧ locateBlock noEndLines = none
    ∧ parse_c5m_covariance noEndLines = none :=
  ⟨(C4_block_delimitation noEndLines).1, rfl, (C4_block_delimitation noEndLines).2 rfl⟩

theorem startsWith_hashplus_shape (ln : List Char)
    (h : startsWithL ln ("#+".data) = true) : ∃ t, ln = '#' :: '+' :: t := by
  rw [startsWithL, List.isPrefixOf_iff_prefix] at h
  obtain ⟨t, ht⟩ := h
  exact ⟨t, ht.symm⟩

theorem dropWhile_append_last {α : Type} (p : α → Bool) (l : List α) (c : α)
    (hc : p c = false) : ∃ pre, List.dropWhile p (l ++ [c]) = pre ++ [c] := by
  induction l with
  | nil =>
      refine ⟨[], ?_⟩
      simp [List.dropWhile_cons, hc]
  | cons x l ih =>
      by_cases hx : p x = true
      · obtain ⟨pre, hpre⟩ := ih
        refine ⟨pre, ?_⟩
        simp [List.dropWhile_cons, hx, hpre]
      · refine ⟨x :: l, ?_⟩
        simp [List.dropWhile_cons, hx]

theorem trimL_plus_shape (t : List Char) : ∃ u, trimL ('+' :: t) = '+' :: u := by
  unfold trimL rstripL
  rw [show List.dropWhile Char.isWhitespace ('+' :: t) = '+' :: t from by
    simp [List.dropWhile_cons]]
  rw [show ('+' :: t).reverse = t.reverse ++ ['+'] from by simp]
  obtain ⟨pre, hpre⟩ :=
    dropWhile_append_last Char.isWhitespace t.reverse '+' (by decide)
  rw [hpre]
  exact ⟨pre.reverse, by simp⟩

theorem plus_key_not_mem (u : List Char) : ('+' :: u) ∉ metaKeys := by
  intro hmem
  have hall : metaKeys.all (fun k => !(k.head? == some '+')) = true := by decide
  have := List.all_eq_true.mp hall _ hmem
  simp at this

theorem metaNormalStep_plus (st : MetaState) (t : List Char) :
    metaNormalStep st ('#' :: '+' :: t) = ⟨st.meta, none⟩ := by
  unfold metaNormalStep
  rw [show ('#' :: '+' :: t).drop 1 = '+' :: t from rfl]
  obtain ⟨u, hu⟩ := trimL_plus_shape t
  rw [hu]
  rw [if_neg (by simp)]
  rw [show ('+' :: u).takeWhile (fun c => !c.isWhitespace) =
    '+' :: u.takeWhile (fun c => !c.isWhitespace) from by
      rw [List.takeWhile_cons]; rfl]
  rw [if_neg (plus_key_not_mem _)]

theorem lookup_memKey (m : MetaDict) (k v : List Char) (h : m.lookup k = some v) :
    memKey m k = true := by
  induction m with
  | nil => exact absurd h (by simp)
  | cons p m ih =>
      obtain ⟨a, b⟩ := p
      unfold memKey
      simp only [List.any_cons]
      by_cases hk : (k == a) = true
      · have : (a == k) = true := by
          rw [beq_iff_eq] at hk ⊢
          exact hk.symm
        rw [this]
        rfl
      · rw [List.lookup] at h
        rw [Bool.of_not_eq_true hk] at h
        have := ih h
        unfold memKey at this
        simp only [this, Bool.or_true]

theorem metaStep_cont (m : MetaDict) (k ln : List Char)
    (hplus : startsWithL ln ("#+".data) = true) (hmem : memKey m k = true) :
    metaStep ⟨m, some k⟩ ln =
      ⟨metaSet m k (joinVals ((metaGet m k).getD []) (trimL (ln.drop 2))), some k⟩ := by
  obtain ⟨t, rfl⟩ := startsWith_hashplus_shape ln hplus
  have c1 : startsWithL ('#' :: '+' :: t) ("#".data) = true := rfl
  unfold metaStep
  rw [c1]
  rw [if_neg (by simp)]
  show (if startsWithL ('#' :: '+' :: t) ("#+".data) && memKey m k then _ else _) = _
  rw [hplus, hmem]
  simp

/-- C5: a continuation line appends its trailing content, space-joined, to
the most recently recognized field, but only when that field exists in the
record (otherwise the record is unchanged); a normal marker line with an
unrecognized candidate key clears the current-field state; and
`#TITLE Example` followed by `#+ continued` parses to
`{"TITLE": "Example continued"}`. -/
theorem C5_metadata_continuation :
    (∀ m k ln, startsWithL ln ("#+".data) = true → memKey m k = true →
       metaStep ⟨m, some k⟩ ln =
         ⟨metaSet m k (joinVals ((metaGet m k).getD []) (trimL (ln.drop 2))), some k⟩)
    ∧ (∀ m cur ln, startsWithL ln ("#+".data) = true →
       (cur = none ∨ ∃ k, cur = some k ∧ memKey m k = false) →
       (metaStep ⟨m, cur⟩ ln).meta = m)
    ∧ (∀ m cur ln, startsWithL ln ("#".data) = true →
       ¬ startsWithL ln ("#+".data) = true →
       trimL (ln.drop 1) ≠ [] →
       (trimL (ln.drop 1)).takeWhile (fun c => !c.isWhitespace) ∉ metaKeys →
       metaStep ⟨m, cur⟩ ln = ⟨m, none⟩)
    ∧ parse_c5m_metadata exMetaLines = [("TITLE".data, "Example continued".data)] := by
  refine ⟨fun m k ln h1 h2 => metaStep_cont m k ln h1 h2, ?_, ?_, by decide⟩
  · intro m cur ln hplus hcase
    obtain ⟨t, rfl⟩ := startsWith_hashplus_shape ln hplus
    have c1 : startsWithL ('#' :: '+' :: t) ("#".data) = true := rfl
    unfold metaStep
    rw [c1]
    rw [if_neg (by simp)]
    rcases hcase with hnone | ⟨k, hk, hmemf⟩
    · subst hnone
      rw [metaNormalStep_plus]
    · subst hk
      show (if startsWithL ('#' :: '+' :: t) ("#+".data) && memKey m k then _
            else metaNormalStep ⟨m, some k⟩ ('#' :: '+' :: t)).meta = m
      rw [hplus, hmemf]
      rw [if_neg (by simp)]
      rw [metaNormalStep_plus]
  · intro m cur ln hhash hplusn hs hkey
    have hnorm : ∀ c : Option (List Char), metaNormalStep ⟨m, c⟩ ln = ⟨m, none⟩ := by
      intro c
      unfold metaNormalStep
      rw [if_neg hs]
      rw [if_neg hkey]
    unfold metaStep
    rw [hhash]
    rw [if_neg (by simp)]
    cases cur with
    | none => exact hnorm none
    | some k =>
        show (if startsWithL ln ("#+".data) && memKey m k then _
              else metaNormalStep ⟨m, some k⟩ ln) = _
        rw [Bool.not_eq_true] at hplusn
        rw [hplusn]
        rw [if_neg (by simp)]
        exact hnorm (some k)

/-- C5 witness: the continuation rule applied to the record
`{"TITLE": "Example"}` and the line `#+ continued`. -/
theorem C5_witness :
    (startsWithL ("#+ continued".data) ("#+".data) = true
     ∧ memKey [("TITLE".data, "Example".data)] ("TITLE".data) = true)
    ∧ metaStep ⟨[("TITLE".data, "Example".data)], some ("TITLE".data)⟩
        ("#+ continued".data) =
      ⟨metaSet [("TITLE".data, "Example".data)] ("TITLE".data)
        (joinVals ((metaGet [("TITLE".data, "Example".data)] ("TITLE".data)).getD [])
          (trimL (("#+ continued".data).drop 2))), some ("TITLE".data)⟩ :=
  ⟨⟨rfl, rfl⟩, C5_metadata_continuation.1 _ _ _ rfl rfl⟩

theorem foldl_metaStep_skips (skips : List (List Char)) :
    ∀ st : MetaState,
      (∀ l ∈ skips, startsWithL l ("#".data) = false ∨ trimL (l.drop 1) = []) →
      List.foldl metaStep st skips = st := by
  induction skips with
  | nil => intro st _; rfl
  | cons l rest ih =>
      intro st hcond
      have hl := hcond l (by simp)
      have hstep : metaStep st l = st := by
        rcases hl with hno | hempty
        · unfold metaStep
          rw [hno]
          rw [if_pos rfl]
        · by_cases hh : startsWithL l ("#".data) = true
          · have hnp : startsWithL l ("#+".data) = false := by
              by_cases hp : startsWithL l ("#+".data) = true
              · obtain ⟨t, rfl⟩ := startsWith_hashplus_shape l hp
                obtain ⟨u, hu⟩ := trimL_plus_shape t
                rw [show ('#' :: '+' :: t).drop 1 = '+' :: t from rfl] at hempty
                rw [hu] at hempty
                exact absurd hempty (by simp)
              · exact Bool.of_not_eq_true hp
            have hnorm : metaNormalStep st l = st := by
              unfold metaNormalStep
              rw [if_pos hempty]
            unfold metaStep
            rw [hh]
            rw [if_neg (by simp)]
            cases hc : st.current with
            | none => rw [hnorm]
            | some k =>
                show (if startsWithL l ("#+".data) && memKey st.meta k then _
                      else metaNormalStep st l) = _
                rw [hnp]
                rw [if_neg (by simp)]
                rw [hnorm]
          · unfold metaStep
            rw [Bool.of_not_eq_true hh]
            rw [if_pos rfl]
      rw [List.foldl_cons, hstep]
      exact ih st (fun x hx => hcond x (by simp [hx]))

/-- C10: lines not beginning with the marker, and marker lines that are
empty after stripping, are skipped without clearing the current-field state:
a recognized field line followed by any number of such lines and then a
continuation line still has the continuation append to that field. -/
theorem C10_skip_preserves_current :
    (∀ st ln, startsWithL ln ("#".data) = false → metaStep st ln = st)
    ∧ (∀ st ln, startsWithL ln ("#".data) = true → trimL (ln.drop 1) = [] →
        metaStep st ln = st)
    ∧ (∀ (st0 : MetaState) (kl cl : List Char) (skips : List (List Char))
         (k v : List Char),
        (metaStep st0 kl).current = some k →
        metaGet (metaStep st0 kl).meta k = some v →
        (∀ l ∈ skips, startsWithL l ("#".data) = false ∨ trimL (l.drop 1) = []) →
        startsWithL cl ("#+".data) = true →
        List.foldl metaStep st0 (kl :: (skips ++ [cl])) =
          ⟨metaSet (metaStep st0 kl).meta k (joinVals v (trimL (cl.drop 2))), some k⟩) := by
  refine ⟨?_, ?_, ?_⟩
  · intro st ln hno
    unfold metaStep
    rw [hno]
    rw [if_pos rfl]
  · intro st ln hh hempty
    have := foldl_metaStep_skips [ln] st (by
      intro l hl
      simp only [List.mem_singleton] at hl
      subst hl
      exact Or.inr hempty)
    simpa using this
  · intro st0 kl cl skips k v hcur hget hskips hplus
    rw [List.foldl_cons, List.foldl_append]
    rw [foldl_metaStep_skips skips (metaStep st0 kl) hskips]
    simp only [List.foldl_cons, List.foldl_nil]
    rcases hkl : metaStep st0 kl with ⟨m1, cur1⟩
    rw [hkl] at hcur hget
    dsimp only at hcur hget
    subst hcur
    have hmem : memKey m1 k = true := lookup_memKey _ _ v hget
    dsimp only
    rw [metaStep_cont m1 k cl hplus hmem]
    rw [hget]
    rfl

/-- C10 witness: a recognized `#TITLE` line, a non-marker line and a bare
`#` line, then a continuation — the continuation still appends. -/
theorem C10_witness :
    ((metaStep ⟨[], none⟩ ("#TITLE Example".data)).current = some ("TITLE".data)
     ∧ metaGet (metaStep ⟨[], none⟩ ("#TITLE Example".data)).meta ("TITLE".data) =
         some ("Example".data)
     ∧ (∀ l ∈ (["no marker".data, "#".data] : List (List Char)),
          startsWithL l ("#".data) = false ∨ trimL (l.drop 1) = [])
     ∧ startsWithL ("#+ continued".data) ("#+".data) = true)
    ∧ List.foldl metaStep ⟨[], none⟩
        (("#TITLE Example".data) ::
          (["no marker".data, "#".data] ++ ["#+ continued".data])) =
      ⟨metaSet (metaStep ⟨[], none⟩ ("#TITLE Example".data)).meta ("TITLE".data)
        (joinVals ("Example".data) (trimL (("#+ continued".data).drop 2))),
       some ("TITLE".data)⟩ :=
  ⟨⟨by decide, by decide, by decide, rfl⟩,
   C10_skip_preserves_current.2.2 ⟨[], none⟩ ("#TITLE Example".data)
     ("#+ continued".data) (["no marker".data, "#".data]) ("TITLE".data)
     ("Example".data) (by decide) (by decide) (by decide) rfl⟩

theorem lexLe_total (a : List Char) : ∀ b, lexLe a b = true ∨ lexLe b a = true := by
  induction a with
  | nil => intro b; left; rfl
  | cons x xs ih =>
      intro b
      cases b with
      | nil => right; rfl
      | cons y ys =>
          unfold lexLe
          by_cases hxy : x.toNat = y.toNat
          · rw [if_pos hxy, if_pos hxy.symm]
            exact ih ys
          · rw [if_neg hxy, if_neg (fun h => hxy h.symm)]
            rcases Nat.lt_or_ge x.toNat y.toNat with h | h
            · left; exact decide_eq_true h
            · right; exact decide_eq_true (by omega)

theorem lexLe_trans (a : List Char) :
    ∀ b c, lexLe a b = true → lexLe b c = true → lexLe a c = true := by
  induction a with
  | nil => intro b c _ _; rfl
  | cons x xs ih =>
      intro b c hab hbc
      cases b with
      | nil => exact absurd hab (by simp [lexLe])
      | cons y ys =>
          cases c with
          | nil => exact absurd hbc (by simp [lexLe])
          | cons z zs =>
              unfold lexLe at hab hbc ⊢
              by_cases hxy : x.toNat = y.toNat
              · rw [if_pos hxy] at hab
                by_cases hyz : y.toNat = z.toNat
                · rw [if_pos hyz] at hbc
                  rw [if_pos (hxy.trans hyz)]
                  exact ih ys zs hab hbc
                · rw [if_neg hyz] at hbc
                  have hyz' : y.toNat < z.toNat := of_decide_eq_true hbc
                  rw [if_neg (show ¬ x.toNat = z.toNat from by omega)]
                  exact decide_eq_true (by omega)
              · rw [if_neg hxy] at hab
                have hxy' : x.toNat < y.toNat := of_decide_eq_true hab
                by_cases hyz : y.toNat = z.toNat
                · rw [if_neg (show ¬ x.toNat = z.toNat from by omega)]
                  exact decide_eq_true (by omega)
                · rw [if_neg hyz] at hbc
                  have hyz' : y.toNat < z.toNat := of_decide_eq_true hbc
                  rw [if_neg (show ¬ x.toNat = z.toNat from by omega)]
                  exact decide_eq_true (by omega)

instance : IsTotal (List Char) hdrLe := ⟨fun a b => lexLe_total a b⟩

instance : IsTrans (List Char) hdrLe := ⟨fun a b c => lexLe_trans a b c⟩

/-- C6: for every non-empty row sequence on which neither the priority lists
nor the structural fallback resolve both an energy and a value header, the
extractor fails with the error carrying the sorted header union — and this is
the only error it produces; the error payload is sorted and is a permutation
of the header union. -/
theorem C6_resolution_error (rows : List Row) :
    (rows ≠ [] → resolveKeys rows = none →
       extract_xy_from_csv_rows rows = .error (sortHdrs (headerUnion rows)))
    ∧ (∀ e, extract_xy_from_csv_rows rows = .error e →
       rows ≠ [] ∧ resolveKeys rows = none ∧ e = sortHdrs (headerUnion rows))
    ∧ List.Sorted hdrLe (sortHdrs (headerUnion rows))
    ∧ (sortHdrs (headerUnion rows)).Perm (headerUnion rows) := by
  refine ⟨?_, ?_, List.sorted_insertionSort hdrLe _, List.perm_insertionSort hdrLe _⟩
  · intro hne hres
    unfold extract_xy_from_csv_rows
    rw [if_neg hne]
    simp only [hres]
  · intro e he
    unfold extract_xy_from_csv_rows at he
    by_cases hne : rows = []
    · rw [if_pos hne] at he
      exact absurd he (by simp)
    · rw [if_neg hne] at he
      cases hres : resolveKeys rows with
      | none =>
          simp only [hres, Except.error.injEq] at he
          exact ⟨hne, rfl, he.symm⟩
      | some p =>
          obtain ⟨ek, vk, dk⟩ := p
          simp only [hres] at he
          exact absurd he (by simp)

/-- C6 witness: the theorem applied to a row with unrecognizable headers. -/
theorem C6_witness :
    (badHdrRows ≠ [] ∧ resolveKeys badHdrRows = none)
    ∧ extract_xy_from_csv_rows badHdrRows = .error (sortHdrs (headerUnion badHdrRows)) :=
  ⟨⟨by decide, rfl⟩, (C6_resolution_error badHdrRows).1 (by decide) rfl⟩

theorem buildSeries_eq (ek vk : List Char) (dk : Option (List Char)) :
    ∀ rows : List Row,
      buildSeries ek vk dk rows =
        (rows.filterMap (fun r => match cellNum r ek, cellNum r vk with
            | some e, some _ => some e
            | _, _ => none),
         rows.filterMap (fun r => match cellNum r ek, cellNum r vk with
            | some _, some y => some y
            | _, _ => none),
         rows.filterMap (fun r => match cellNum r ek, cellNum r vk with
            | some _, some _ =>
                some (match dk with | some k => cellNum r k | none => none)
            | _, _ => none)) := by
  intro rows
  induction rows with
  | nil => rfl
  | cons r rest ih =>
      simp only [buildSeries, ih, List.filterMap_cons]
      cases cellNum r ek <;> cases cellNum r vk <;> rfl

theorem buildSeries_lengths (ek vk : List Char) (dk : Option (List Char)) :
    ∀ rows : List Row,
      (buildSeries ek vk dk rows).1.length = (buildSeries ek vk dk rows).2.1.length
      ∧ (buildSeries ek vk dk rows).2.2.length = (buildSeries ek vk dk rows).2.1.length := by
  intro rows
  induction rows with
  | nil => exact ⟨rfl, rfl⟩
  | cons r rest ih =>
      simp only [buildSeries]
      cases cellNum r ek <;> cases cellNum r vk <;> simp_all

/-- C7: whenever the extractor succeeds, the three output sequences have
equal length, and (for non-empty input, with the resolved headers) a row
contributes exactly when both its energy and value cells are numeric, while a
missing or non-numeric uncertainty cell contributes an absence marker. -/
theorem C7_row_filtering (rows : List Row) (E Y : List ℚ) (DY : List (Option ℚ))
    (h : extract_xy_from_csv_rows rows = .ok (E, Y, DY)) :
    E.length = Y.length ∧ DY.length = Y.length
    ∧ (rows ≠ [] → ∃ ek vk dk, resolveKeys rows = some (ek, vk, dk)
       ∧ E = rows.filterMap (fun r => match cellNum r ek, cellNum r vk with
            | some e, some _ => some e
            | _, _ => none)
       ∧ Y = rows.filterMap (fun r => match cellNum r ek, cellNum r vk with
            | some _, some y => some y
            | _, _ => none)
       ∧ DY = rows.filterMap (fun r => match cellNum r ek, cellNum r vk with
            | some _, some _ =>
                some (match dk with | some k => cellNum r k | none => none)
            | _, _ => none)) := by
  unfold extract_xy_from_csv_rows at h
  by_cases hne : rows = []
  · rw [if_pos hne] at h
    simp only [Except.ok.injEq, Prod.mk.injEq] at h
    obtain ⟨hE, hY, hDY⟩ := h
    subst hE; subst hY; subst hDY
    exact ⟨rfl, rfl, fun hc => absurd hne hc⟩
  · rw [if_neg hne] at h
    cases hres : resolveKeys rows with
    | none =>
        simp only [hres] at h
        exact absurd h (by simp)
    | some p =>
        obtain ⟨ek, vk, dk⟩ := p
        simp only [hres, Except.ok.injEq] at h
        have he := h.symm.trans (buildSeries_eq ek vk dk rows)
        simp only [Prod.mk.injEq] at he
        obtain ⟨hE, hY, hDY⟩ := he
        have hl := buildSeries_lengths ek vk dk rows
        rw [h] at hl
        dsimp only at hl
        exact ⟨hl.1, hl.2, fun _ => ⟨ek, vk, dk, rfl, hE, hY, hDY⟩⟩

/-- C7 witness: a fully numeric row without uncertainty plus a row whose
value cell is a string — the second row is dropped, the first records an
absent uncertainty. -/
theorem C7_witness :
    extract_xy_from_csv_rows mixedRows = .ok ([7], [3], [none])
    ∧ (([7] : List ℚ).length = ([3] : List ℚ).length
       ∧ ([none] : List (Option ℚ)).length = ([3] : List ℚ).length
       ∧ (mixedRows ≠ [] → ∃ ek vk dk, resolveKeys mixedRows = some (ek, vk, dk)
          ∧ [(7 : ℚ)] = mixedRows.filterMap
              (fun r => match cellNum r ek, cellNum r vk with
                | some e, some _ => some e
                | _, _ => none)
          ∧ [(3 : ℚ)] = mixedRows.filterMap
              (fun r => match cellNum r ek, cellNum r vk with
                | some _, some y => some y
                | _, _ => none)
          ∧ [(none : Option ℚ)] = mixedRows.filterMap
              (fun r => match cellNum r ek, cellNum r vk with
                | some _, some _ =>
                    some (match dk with | some k => cellNum r k | none => none)
                | _, _ => none))) :=
  ⟨rfl, C7_row_filtering mixedRows [7] [3] [none] rfl⟩

set_option maxRecDepth 4000 in
/-- C8: the extractor applied to the single converted row
`{"EN (EV) 1.1": "1000", "DATA (B) 0.1": "2.5", "DATA-ERR (B) 0.911": "0.1"}`
returns the series E = [1000.0], Y = [2.5], DY = [0.1]. -/
theorem C8_example_series :
    extract_xy_from_csv_rows [csvConvertRow exCsvRaw] =
      .ok ([1000], [5/2], [some (1/10)]) := by
  have h : extract_xy_from_csv_rows [csvConvertRow exCsvRaw] =
      .ok ([qlit "1000"], [qlit "2.5"], [some (qlit "0.1")]) := rfl
  rw [h]
  simp +decide [qlit, parseFloat?, parseMantissa, parseExpTail, trimL, rstripL,
    digToNat, pow10]
  norm_num

theorem parseDataLine_eq_match (ln : List Char)
    (htrim : trimL ln ≠ []) (hhash : startsWithL ln ("#".data) = false)
    (a b c d : List Char) (rest : List (List Char))
    (htoks : tokensL ln = a :: b :: c :: d :: rest) :
    parseDataLine ln =
      match parseFloat? a, parseFloat? b, parseFloat? c, parseFloat? d with
      | some ea, some eb, some yv, some sp =>
          some ⟨ea, eb, yv, sp, rest.filterMap parseFloat?⟩
      | _, _, _, _ => none := by
  unfold parseDataLine
  rw [if_neg (by
    rintro (hempty | hstart)
    · exact htrim hempty
    · rw [hhash] at hstart
      exact Bool.noConfusion hstart)]
  rw [htoks]
  rw [if_neg (by simp)]

/-- C9: inside the located covariance block, a line with fewer than four
tokens yields no point, a line whose first four tokens do not all parse as
floats yields no point, and otherwise each unparseable remaining token is
dropped individually while the rest of the correlation list is kept in
order; each line is handled independently (the block's rows are the
per-line `filterMap`). -/
theorem C9_row_tolerance (lines : List (List Char)) (i0 i1 : Nat)
    (hloc : locateBlock lines = some (i0, i1)) :
    dataRowsOf lines = ((lines.take i1).drop (i0 + 1)).filterMap parseDataLine
    ∧ ∀ ln ∈ (lines.take i1).drop (i0 + 1),
        ((tokensL ln).length < 4 → parseDataLine ln = none)
        ∧ (trimL ln ≠ [] → startsWithL ln ("#".data) = false →
           ∀ a b c d rest, tokensL ln = a :: b :: c :: d :: rest →
             ((parseFloat? a = none ∨ parseFloat? b = none ∨ parseFloat? c = none ∨
               parseFloat? d = none) → parseDataLine ln = none)
             ∧ (∀ qa qb qc qd, parseFloat? a = some qa → parseFloat? b = some qb →
                 parseFloat? c = some qc → parseFloat? d = some qd →
                 parseDataLine ln =
                   some ⟨qa, qb, qc, qd, rest.filterMap parseFloat?⟩)) := by
  constructor
  · simp only [dataRowsOf, hloc]
    rfl
  · intro ln _
    constructor
    · intro hlen
      unfold parseDataLine
      by_cases hskip : trimL ln = [] ∨ startsWithL ln ("#".data) = true
      · rw [if_pos hskip]
      · rw [if_neg hskip]
        rw [if_pos hlen]
    · intro htrim hhash a b c d rest htoks
      have hm := parseDataLine_eq_match ln htrim hhash a b c d rest htoks
      constructor
      · intro hor
        rw [hm]
        cases hpa : parseFloat? a <;> cases hpb : parseFloat? b <;>
          cases hpc : parseFloat? c <;> cases hpd : parseFloat? d <;>
          simp_all
      · intro qa qb qc qd hqa hqb hqc hqd
        rw [hm, hqa, hqb, hqc, hqd]

/-- C9 witness: the theorem applied to a block holding a short line, a line
with an unparseable fourth token, and a line with a dropped correlation
token. -/
theorem C9_witness :
    locateBlock tolCovLines = some (0, 4)
    ∧ (dataRowsOf tolCovLines =
        ((tolCovLines.take 4).drop 1).filterMap parseDataLine
       ∧ ∀ ln ∈ (tolCovLines.take 4).drop 1,
          ((tokensL ln).length < 4 → parseDataLine ln = none)
          ∧ (trimL ln ≠ [] → startsWithL ln ("#".data) = false →
             ∀ a b c d rest, tokensL ln = a :: b :: c :: d :: rest →
               ((parseFloat? a = none ∨ parseFloat? b = none ∨ parseFloat? c = none ∨
                 parseFloat? d = none) → parseDataLine ln = none)
               ∧ (∀ qa qb qc qd, parseFloat? a = some qa → parseFloat? b = some qb →
                   parseFloat? c = some qc → parseFloat? d = some qd →
                   parseDataLine ln =
                     some ⟨qa, qb, qc, qd, rest.filterMap parseFloat?⟩))) :=
  ⟨rfl, C9_row_tolerance tolCovLines 0 4 rfl⟩

end Exfor
